import Mathlib

/-!
Verification of the indexing and search core of the Audacious search-tool
plugin (`src/search-tool-qt/search-tool-qt.cc`).

The embedding covers the data model (`SearchField`, `Key`, `Item`), the
database construction (`SearchModel::create_database`), the recursive
masked substring search (`search_recurse`), the two comparators
(`item_compare`, `item_compare_pass1`) and the ranking / truncation driver
(`SearchModel::do_search`).

Library functions that live outside this repository's sources (libaudcore's
`String`, `Tuple`, `SimpleHash`, `Index::sort`, `str_tolower_utf8`,
`str_compare`, and libc's `strstr`) are modelled from the spec; each such
definition says so in its doc comment.  `SimpleHash` is modelled as an
insertion-ordered association list, which fixes one concrete iteration
order (the source leaves hash iteration order unspecified).
-/

/-- The four searchable fields (`enum class SearchField`), in declaration
order, which is both the hierarchy order and the primary display order. -/
inductive SearchField where
  | Genre
  | Artist
  | Album
  | Title
deriving DecidableEq, Repr

/-- The numeric value of a `SearchField`, as used by the C++ `enum class`
comparisons in `item_compare`. -/
def fieldNum : SearchField → Nat
  | .Genre => 0
  | .Artist => 1
  | .Album => 2
  | .Title => 3

/-- `struct Key`: a `(field, name)` pair; node identity within one child
map. -/
structure Key where
  field : SearchField
  name : String
deriving DecidableEq, Repr

mutual
/-- `struct Item`: one node of the index.  The C++ `parent` back pointer is
not stored; it is recovered from the traversal path (see `RItem.chain`),
which is equivalent because every item is created with `parent` set to the
owner of the map it is inserted into. -/
inductive Item where
  | mk (field : SearchField) (name : String) (folded : String)
       (children : Forest) (matches' : List Nat)

/-- `SimpleHash<Key, Item>`, modelled from the spec as an insertion-ordered
association list (the source's hash iteration order is unspecified). -/
inductive Forest where
  | nil : Forest
  | cons (key : Key) (item : Item) (rest : Forest) : Forest
end

def Item.field : Item → SearchField
  | .mk f _ _ _ _ => f

def Item.name : Item → String
  | .mk _ n _ _ _ => n

def Item.folded : Item → String
  | .mk _ _ d _ _ => d

def Item.children : Item → Forest
  | .mk _ _ _ c _ => c

def Item.matches' : Item → List Nat
  | .mk _ _ _ _ m => m

/-- `SimpleHash::n_items` on a child map. -/
def Forest.n_items : Forest → Nat
  | .nil => 0
  | .cons _ _ r => r.n_items + 1

/-- `SimpleHash::lookup`. -/
def Forest.lookup (k : Key) : Forest → Option Item
  | .nil => none
  | .cons k1 it r => if k1 = k then some it else r.lookup k

/-- `SimpleHash::add` merged with in-place update: replace the item stored
under `k` if present, otherwise append a new entry (the source only calls
`add` after a failed `lookup`). -/
def Forest.setItem (k : Key) (it : Item) : Forest → Forest
  | .nil => .cons k it .nil
  | .cons k1 it1 r => if k1 = k then .cons k1 it r else .cons k1 it1 (r.setItem k it)

/-- Modelled from the spec: `str_tolower_utf8` (libaudcore, not under
`src/`) computes the case-folded comparison form of a name; modelled as
per-character lowercasing. -/
def str_tolower_utf8 (s : String) : String := ⟨s.data.map Char.toLower⟩

/-- Whether `needle` matches a leading segment of `hay`. -/
def leadMatch : List Char → List Char → Bool
  | [], _ => true
  | _ :: _, [] => false
  | a :: as, b :: bs => a == b && leadMatch as bs

/-- Occurrence of `needle` as a contiguous segment of `hay`. -/
def subOccurs (needle : List Char) : List Char → Bool
  | [] => leadMatch needle []
  | hay@(_ :: t) => leadMatch needle hay || subOccurs needle t

/-- Modelled from the spec: libc `strstr(hay, needle) != nullptr`, i.e.
substring occurrence of the search term in the folded name. -/
def strstr (hay needle : String) : Bool := subOccurs needle.data hay.data

/-- Modelled from the spec: the part of a playlist entry's `Tuple`
(libaudcore, not under `src/`) that `create_database` reads.  An absent
field is modelled as the empty string, following the spec's statement that
empty and absent field values are treated identically. -/
structure Tuple where
  genre : String
  artist : String
  album : String
  title : String

/-- The `aud::array<SearchField, String> fields` of one record, paired with
the fields in enumeration order, as iterated by
`for (auto f : aud::range<SearchField> ())`. -/
def recordFields (r : Tuple) : List (SearchField × String) :=
  [(.Genre, r.genre), (.Artist, r.artist), (.Album, r.album), (.Title, r.title)]

/-- The per-record body of `SearchModel::create_database`: walk the fields
in enumeration order; a field whose value is empty is skipped entirely; a
non-empty field looks up or inserts the `(field, value)` node in the
current map and appends the record index `e` to its matches; for every
field except Genre the cursor then descends into that node's child map for
the remaining fields of the record. -/
def insertRecordFields (e : Nat) : List (SearchField × String) → Forest → Forest
  | [], m => m
  | (f, v) :: rest, m =>
    if v = "" then insertRecordFields e rest m
    else
      if f = .Genre then
        match m.lookup ⟨f, v⟩ with
        | some (.mk f0 n0 d0 ch ms) =>
            insertRecordFields e rest (m.setItem ⟨f, v⟩ (.mk f0 n0 d0 ch (ms ++ [e])))
        | none =>
            insertRecordFields e rest
              (m.setItem ⟨f, v⟩ (.mk f v (str_tolower_utf8 v) .nil [e]))
      else
        match m.lookup ⟨f, v⟩ with
        | some (.mk f0 n0 d0 ch ms) =>
            m.setItem ⟨f, v⟩ (.mk f0 n0 d0 (insertRecordFields e rest ch) (ms ++ [e]))
        | none =>
            m.setItem ⟨f, v⟩
              (.mk f v (str_tolower_utf8 v) (insertRecordFields e rest .nil) [e])

/-- The forest built by `SearchModel::create_database` from the ordered
record sequence: records are processed in order, each from the root map. -/
def create_database_forest (records : List Tuple) : Forest :=
  records.enum.foldl (fun m er => insertRecordFields er.1 (recordFields er.2) m) .nil

/-- Truncation of a bit pattern to the 32 bits of a C `int`. -/
def wrap32 (n : Nat) : Nat := n % 2 ^ 32

/-- `(1 << s_search_terms.len ()) - 1` computed on a 32-bit `int`: the
initial mask of still-unsatisfied terms in `SearchModel::do_search`. -/
def initialMask (count : Nat) : Nat := (2 ^ count - 1) % 2 ^ 32

/-- The term-testing loop of `search_recurse`: `t` is the current term
index and `wrap32 (2 ^ t)` the 32-bit pattern of `bit = 1 << t`; a term
whose bit is already clear is skipped; a term found in the folded name
clears its bit (`new_mask &= ~bit`, the complement taken in 32 bits); a
term not found on a childless node stops the loop early. -/
def termLoop (folded : String) (hasChildren : Bool) : List String → Nat → Nat → Nat
  | [], _, mask => mask
  | term :: rest, t, mask =>
    let bit := wrap32 (2 ^ t)
    if mask &&& bit = 0 then termLoop folded hasChildren rest (t + 1) mask
    else if strstr folded term then
      termLoop folded hasChildren rest (t + 1) (mask &&& ((2 ^ 32 - 1) ^^^ bit))
    else if !hasChildren then mask
    else termLoop folded hasChildren rest (t + 1) mask

/-- A search result entry: the found `Item` together with its ancestor
chain (the `parent` links, nearest parent first), which is what
`item_compare` follows through the `parent` pointers. -/
structure RItem where
  item : Item
  chain : List (SearchField × String)

/-- `search_recurse`: visit every node of the forest; run the term loop on
the inherited mask; append the node to the results when its local mask is
zero and its child map does not hold exactly one entry; recurse into the
children with the local mask, then continue with the siblings under the
inherited mask. -/
def search_recurse (terms : List String) :
    List (SearchField × String) → Nat → Forest → List RItem
  | _, _, .nil => []
  | chain, mask, .cons _ (.mk f n d ch ms) rest =>
    let new_mask := termLoop d (ch.n_items != 0) terms 0 mask
    (if new_mask = 0 ∧ ch.n_items ≠ 1 then [⟨.mk f n d ch ms, chain⟩] else [])
      ++ search_recurse terms ((f, n) :: chain) new_mask ch
      ++ search_recurse terms chain mask rest

/-- Sign-valued comparison of two characters by code point. -/
def chrCompare (a b : Char) : Int :=
  if a.toNat < b.toNat then -1 else if b.toNat < a.toNat then 1 else 0

/-- Lexicographic sign-valued list comparison over an element comparison:
equal heads defer to the tails; an exhausted list sorts first. -/
def listCompare {α : Type} (cmp : α → α → Int) : List α → List α → Int
  | [], [] => 0
  | [], _ :: _ => -1
  | _ :: _, [] => 1
  | x :: xs, y :: ys => if cmp x y = 0 then listCompare cmp xs ys else cmp x y

/-- Lexicographic sign-valued comparison of character sequences. -/
def lexCompare : List Char → List Char → Int := listCompare chrCompare

/-- Modelled from the spec: `str_compare` (libaudcore, not under `src/`),
a collation-aware display-name comparison of which only the sign is used;
modelled as lexicographic comparison of the character sequences. -/
def str_compare (a b : String) : Int := lexCompare a.data b.data

/-- One level of `item_compare`: the field enumeration order first, then
the display name. -/
def entryCompare (x y : SearchField × String) : Int :=
  if fieldNum x.1 < fieldNum y.1 then -1
  else if fieldNum y.1 < fieldNum x.1 then 1
  else str_compare x.2 y.2

/-- `item_compare` expressed on full ancestor chains (the node's own
`(field, name)` first): compare the heads, then the parents recursively;
a parentless node (empty remaining chain) sorts before a parented one. -/
def chainCompare : List (SearchField × String) → List (SearchField × String) → Int :=
  listCompare entryCompare

/-- The full path key of a result item: its own `(field, name)` followed by
the ancestor chain up to the root. -/
def RItem.pathKey (r : RItem) : List (SearchField × String) :=
  (r.item.field, r.item.name) :: r.chain

/-- `item_compare`: the canonical order (field, then name, then parents
recursively). -/
def item_compare (a b : RItem) : Int := chainCompare a.pathKey b.pathKey

/-- `item_compare_pass1`: more matched records first, ties broken by
`item_compare`. -/
def item_compare_pass1 (a b : RItem) : Int :=
  if b.item.matches'.length < a.item.matches'.length then -1
  else if a.item.matches'.length < b.item.matches'.length then 1
  else item_compare a b

/-- `item_compare_pass1 a b <= 0`, the order used for the first sort of
`do_search`. -/
def pass1LE (a b : RItem) : Prop := item_compare_pass1 a b ≤ 0

instance : DecidableRel pass1LE := fun a b =>
  inferInstanceAs (Decidable (item_compare_pass1 a b ≤ 0))

/-- `item_compare a b <= 0`, the order used for the final display sort. -/
def canonLE (a b : RItem) : Prop := item_compare a b ≤ 0

instance : DecidableRel canonLE := fun a b =>
  inferInstanceAs (Decidable (item_compare a b ≤ 0))

/-- The state of `class SearchModel` that the engine touches (`m_rows` and
the Qt machinery are presentation-layer glue and are not modelled). -/
structure SearchModel where
  m_database : Forest
  m_database_valid : Bool
  m_items : List RItem
  m_hidden_items : Nat

/-- A model whose database has never been built. -/
def SearchModel.initial : SearchModel := ⟨.nil, false, [], 0⟩

/-- `SearchModel::destroy_database`: clear the results, the hidden count
and the database, and mark the database invalid. -/
def destroy_database (_st : SearchModel) : SearchModel := ⟨.nil, false, [], 0⟩

/-- `SearchModel::create_database`: destroy the previous database, rebuild
the forest from the records, mark the database valid. -/
def create_database (records : List Tuple) (_st : SearchModel) : SearchModel :=
  ⟨create_database_forest records, true, [], 0⟩

/-- `SearchModel::do_search`: clear the previous results; return them empty
when the database is invalid; otherwise collect the candidates, sort them
by `item_compare_pass1` (`Index::sort`, libaudcore, modelled from the spec
as insertion sort under the comparator), truncate to `max_results`
recording the excess as hidden, and re-sort by `item_compare`. -/
def do_search (max_results : Nat) (terms : List String) (st : SearchModel) : SearchModel :=
  if ¬ st.m_database_valid then { st with m_items := [], m_hidden_items := 0 }
  else
    let cands := search_recurse terms [] (initialMask terms.length) st.m_database
    let sorted1 := List.insertionSort pass1LE cands
    let kept := if max_results < sorted1.length then sorted1.take max_results else sorted1
    let hidden := if max_results < sorted1.length then sorted1.length - max_results else 0
    { st with m_items := List.insertionSort canonLE kept, m_hidden_items := hidden }

/-- The three-record data set of the spec's concrete scenario. -/
def bachRecords : List Tuple :=
  [⟨"", "Bach", "Suites", "No.1"⟩, ⟨"", "Bach", "Suites", "No.2"⟩,
   ⟨"", "Beethoven", "Sonatas", "Moonlight"⟩]

/-! ## Induction principle for the nested forest type -/

/-- Structural induction over a forest that also provides the hypothesis
for the head item's child forest (proved by strong induction on size). -/
theorem forest_sizeOf_induction (motive : Forest → Prop)
    (hnil : motive .nil)
    (hcons : ∀ k f n d ch ms rest, motive ch → motive rest →
      motive (.cons k (.mk f n d ch ms) rest)) :
    ∀ fo, motive fo := by
  have key : ∀ N fo, sizeOf fo ≤ N → motive fo := by
    intro N
    induction N with
    | zero =>
      intro fo h
      cases fo with
      | nil => exact hnil
      | cons k it rest => cases it with | mk f nm d ch ms => simp at h
    | succ n ih =>
      intro fo h
      cases fo with
      | nil => exact hnil
      | cons k it rest =>
        cases it with
        | mk f nm d ch ms =>
          have hch : sizeOf ch ≤ n := by simp at h; omega
          have hrest : sizeOf rest ≤ n := by simp at h; omega
          exact hcons k f nm d ch ms rest (ih ch hch) (ih rest hrest)
  exact fun fo => key (sizeOf fo) fo le_rfl

/-! ## Term-loop lemmas -/

theorem wrap32_two_pow_of_lt {t : Nat} (h : t < 32) : wrap32 (2 ^ t) = 2 ^ t := by
  have h2 : (2 : Nat) ^ t < 2 ^ 32 := Nat.pow_lt_pow_right (by norm_num) h
  show (2 : Nat) ^ t % 2 ^ 32 = 2 ^ t
  exact Nat.mod_eq_of_lt h2

theorem wrap32_two_pow_of_ge {t : Nat} (h : 32 ≤ t) : wrap32 (2 ^ t) = 0 := by
  show (2 : Nat) ^ t % 2 ^ 32 = 0
  exact Nat.dvd_iff_mod_eq_zero.mp (pow_dvd_pow 2 h)

/-- Once the term index reaches 32 the bit pattern is zero and every
remaining term is skipped. -/
theorem termLoop_ge32 (d : String) (hc : Bool) :
    ∀ (terms : List String) (t mask : Nat), 32 ≤ t →
      termLoop d hc terms t mask = mask := by
  intro terms
  induction terms with
  | nil => intro t mask _; rfl
  | cons x rest ih =>
    intro t mask ht
    have hbit : wrap32 (2 ^ t) = 0 := wrap32_two_pow_of_ge ht
    simp only [termLoop, hbit, Nat.and_zero, if_true]
    exact ih (t + 1) mask (by omega)

/-- Terms past index 32 never influence the term loop. -/
theorem termLoop_take (d : String) (hc : Bool) :
    ∀ (terms : List String) (t mask : Nat),
      termLoop d hc terms t mask = termLoop d hc (terms.take (32 - t)) t mask := by
  intro terms
  induction terms with
  | nil => intro t mask; simp
  | cons x rest ih =>
    intro t mask
    by_cases ht : 32 ≤ t
    · have h0 : 32 - t = 0 := by omega
      rw [h0, List.take_zero, termLoop_ge32 d hc (x :: rest) t mask ht]
      rfl
    · have hsucc : 32 - t = (32 - (t + 1)) + 1 := by omega
      rw [hsucc, List.take_succ_cons]
      simp only [termLoop]
      split_ifs with h1 h2 h3
      · exact ih (t + 1) mask
      · exact ih (t + 1) _
      · rfl
      · exact ih (t + 1) mask

/-- The term loop with the early break removed: every term whose bit is
still set is tested at every node.  This is the reference variant that C10
compares `termLoop` against. -/
def termLoopFull (folded : String) : List String → Nat → Nat → Nat
  | [], _, mask => mask
  | term :: rest, t, mask =>
    let bit := wrap32 (2 ^ t)
    if mask &&& bit = 0 then termLoopFull folded rest (t + 1) mask
    else if strstr folded term then
      termLoopFull folded rest (t + 1) (mask &&& ((2 ^ 32 - 1) ^^^ bit))
    else termLoopFull folded rest (t + 1) mask

/-- `search_recurse` with the early break removed from the term loop: the
variant of the search that tests every still-set term bit at every node. -/
def search_recurse_full (terms : List String) :
    List (SearchField × String) → Nat → Forest → List RItem
  | _, _, .nil => []
  | chain, mask, .cons _ (.mk f n d ch ms) rest =>
    let new_mask := termLoopFull d terms 0 mask
    (if new_mask = 0 ∧ ch.n_items ≠ 1 then [⟨.mk f n d ch ms, chain⟩] else [])
      ++ search_recurse_full terms ((f, n) :: chain) new_mask ch
      ++ search_recurse_full terms chain mask rest

/-- On a node with children the break is unreachable, so the two term
loops agree exactly. -/
theorem termLoop_eq_full_of_hasChildren (d : String) :
    ∀ (terms : List String) (t mask : Nat),
      termLoop d true terms t mask = termLoopFull d terms t mask := by
  intro terms
  induction terms with
  | nil => intro t mask; rfl
  | cons x rest ih =>
    intro t mask
    simp only [termLoop, termLoopFull, Bool.not_true]
    split_ifs <;> first | exact ih _ _ | simp_all

/-- In the found branch the bit pattern cannot be zero, hence the term
index is below 32. -/
theorem bit_lt32_of_and_ne {t mask : Nat} (h : ¬ mask &&& wrap32 (2 ^ t) = 0) :
    t < 32 := by
  by_contra hge
  rw [wrap32_two_pow_of_ge (by omega), Nat.and_zero] at h
  exact h rfl

/-- The full term loop never clears a bit whose index is below the current
term index. -/
theorem termLoopFull_testBit (d : String) {b : Nat} (hb : b < 32) :
    ∀ (terms : List String) (t mask : Nat), b < t → mask.testBit b = true →
      (termLoopFull d terms t mask).testBit b = true := by
  intro terms
  induction terms with
  | nil => intro t mask _ hmask; exact hmask
  | cons x rest ih =>
    intro t mask hbt hmask
    simp only [termLoopFull]
    split_ifs with h1 h2
    · exact ih (t + 1) mask (by omega) hmask
    · apply ih (t + 1) _ (by omega)
      have ht32 : t < 32 := bit_lt32_of_and_ne h1
      rw [wrap32_two_pow_of_lt ht32]
      rw [Nat.testBit_and, Nat.testBit_xor, Nat.testBit_two_pow_sub_one,
        Nat.testBit_two_pow, hmask]
      have : ¬ t = b := by omega
      simp [hb, this]
    · exact ih (t + 1) mask (by omega) hmask

/-- A mask with a set bit is not zero. -/
theorem ne_zero_of_testBit {mask b : Nat} (h : mask.testBit b = true) : mask ≠ 0 := by
  intro h0
  rw [h0, Nat.zero_testBit] at h
  exact Bool.false_ne_true h

/-- On a childless node, the broken loop returns zero exactly when the
full loop does: a break leaves the missing term's bit set on both sides. -/
theorem termLoop_zero_iff_full (d : String) :
    ∀ (terms : List String) (t mask : Nat),
      (termLoop d false terms t mask = 0) ↔ (termLoopFull d terms t mask = 0) := by
  intro terms
  induction terms with
  | nil => intro t mask; exact Iff.rfl
  | cons x rest ih =>
    intro t mask
    simp only [termLoop, termLoopFull, Bool.not_false, if_true]
    split_ifs with h1 h2
    · exact ih (t + 1) mask
    · exact ih (t + 1) _
    · have ht32 : t < 32 := bit_lt32_of_and_ne h1
      have hbit : mask.testBit t = true := by
        rw [wrap32_two_pow_of_lt ht32, Nat.and_two_pow] at h1
        rcases hcase : mask.testBit t with _ | _
        · rw [hcase] at h1; simp at h1
        · rfl
      constructor
      · intro h0; exact absurd h0 (ne_zero_of_testBit hbit)
      · intro h0
        exact absurd h0 (ne_zero_of_testBit
          (termLoopFull_testBit d ht32 rest (t + 1) mask (by omega) hbit))

/-- The early break never changes the search output: on a childless node
the masks returned by the two loops are zero together and the (empty)
child recursion ignores the mask; on a node with children the loops agree
exactly. -/
theorem search_recurse_eq_full (terms : List String) :
    ∀ fo : Forest, ∀ chain mask,
      search_recurse terms chain mask fo = search_recurse_full terms chain mask fo := by
  refine forest_sizeOf_induction _ ?_ ?_
  · intro chain mask; rfl
  · intro k f n d ch ms rest ihch ihrest chain mask
    cases ch with
    | nil =>
      simp only [search_recurse, search_recurse_full, Forest.n_items]
      rw [ihrest chain mask]
      have hiff := termLoop_zero_iff_full d terms 0 mask
      simp only [show ((0 : Nat) != 0) = false from rfl] at *
      simp [hiff]
    | cons ck cit crest =>
      simp only [search_recurse, search_recurse_full, Forest.n_items]
      have hc : ((crest.n_items + 1 : Nat) != 0) = true := by simp
      simp only [hc, termLoop_eq_full_of_hasChildren d terms 0 mask, ihch, ihrest]

/-- Search terms past the 32nd never influence the search output. -/
theorem search_recurse_take32 (terms : List String) :
    ∀ fo : Forest, ∀ chain mask,
      search_recurse terms chain mask fo = search_recurse (terms.take 32) chain mask fo := by
  refine forest_sizeOf_induction _ ?_ ?_
  · intro chain mask; rfl
  · intro k f n d ch ms rest ihch ihrest chain mask
    simp only [search_recurse]
    have hTL : termLoop d (ch.n_items != 0) terms 0 mask
        = termLoop d (ch.n_items != 0) (terms.take 32) 0 mask := by
      rw [termLoop_take d (ch.n_items != 0) terms 0 mask]
    rw [hTL, ihch, ihrest]

/-- With at least 32 terms the initial mask has all 32 bits set. -/
theorem initialMask_ge32 {n : Nat} (h : 32 ≤ n) : initialMask n = 2 ^ 32 - 1 := by
  obtain ⟨k, hk⟩ : ∃ k, (2 : Nat) ^ n = 2 ^ 32 * k :=
    ⟨2 ^ (n - 32), by rw [← pow_add]; congr 1; omega⟩
  have hkpos : 1 ≤ k := by
    rcases Nat.eq_zero_or_pos k with h0 | h1
    · exfalso
      have hpos : 0 < (2 : Nat) ^ n := pow_pos (by norm_num) n
      rw [hk, h0, Nat.mul_zero] at hpos
      exact Nat.lt_irrefl 0 hpos
    · exact h1
  show ((2 : Nat) ^ n - 1) % 2 ^ 32 = 2 ^ 32 - 1
  have h32 : (2 : Nat) ^ 32 = 4294967296 := by norm_num
  rw [hk, h32]
  rw [h32] at hk
  omega

/-! ## The canonical comparison is a total order -/

theorem listCompare_eq_zero {α : Type} {cmp : α → α → Int}
    (hcmp : ∀ x y, cmp x y = 0 ↔ x = y) :
    ∀ xs ys, listCompare cmp xs ys = 0 ↔ xs = ys := by
  intro xs
  induction xs with
  | nil => intro ys; cases ys <;> simp [listCompare]
  | cons x xs ih =>
    intro ys
    cases ys with
    | nil => simp [listCompare]
    | cons y ys =>
      simp only [listCompare]
      by_cases h : cmp x y = 0
      · have hxy : x = y := (hcmp x y).mp h
        subst hxy
        simp [h, ih]
      · have hxy : ¬ x = y := fun he => h ((hcmp x y).mpr he)
        simp [h, hxy]

theorem listCompare_neg {α : Type} {cmp : α → α → Int}
    (hneg : ∀ x y, cmp x y = -cmp y x) :
    ∀ xs ys, listCompare cmp xs ys = -listCompare cmp ys xs := by
  intro xs
  induction xs with
  | nil => intro ys; cases ys <;> simp [listCompare]
  | cons x xs ih =>
    intro ys
    cases ys with
    | nil => simp [listCompare]
    | cons y ys =>
      simp only [listCompare]
      by_cases h : cmp x y = 0
      · have h2 : cmp y x = 0 := by have := hneg x y; omega
        simp [h, h2, ih ys]
      · have h2 : ¬ cmp y x = 0 := by have := hneg x y; omega
        simp [h, h2, hneg x y]

theorem listCompare_trans {α : Type} {cmp : α → α → Int}
    (hcmp : ∀ x y, cmp x y = 0 ↔ x = y)
    (hneg : ∀ x y, cmp x y = -cmp y x)
    (htr : ∀ x y z, cmp x y ≤ 0 → cmp y z ≤ 0 → cmp x z ≤ 0) :
    ∀ xs ys zs, listCompare cmp xs ys ≤ 0 → listCompare cmp ys zs ≤ 0 →
      listCompare cmp xs zs ≤ 0 := by
  intro xs
  induction xs with
  | nil => intro ys zs _ _; cases zs <;> simp [listCompare]
  | cons x xs ih =>
    intro ys zs h1 h2
    cases ys with
    | nil => simp [listCompare] at h1
    | cons y ys =>
      cases zs with
      | nil => simp [listCompare] at h2
      | cons z zs =>
        simp only [listCompare] at h1 h2 ⊢
        by_cases hxy : cmp x y = 0
        · have hxy' : x = y := (hcmp _ _).mp hxy
          subst hxy'
          rw [if_pos hxy] at h1
          by_cases hyz : cmp x z = 0
          · rw [if_pos hyz] at h2 ⊢
            exact ih ys zs h1 h2
          · rw [if_neg hyz] at h2 ⊢
            exact h2
        · by_cases hyz : cmp y z = 0
          · have hyz' : y = z := (hcmp _ _).mp hyz
            subst hyz'
            rw [if_neg hxy] at h1 ⊢
            exact h1
          · rw [if_neg hxy] at h1
            rw [if_neg hyz] at h2
            have hxz : cmp x z ≤ 0 := htr x y z h1 h2
            by_cases hxz0 : cmp x z = 0
            · exfalso
              have hxz' : x = z := (hcmp _ _).mp hxz0
              subst hxz'
              have := hneg x y
              omega
            · rw [if_neg hxz0]
              exact hxz

theorem chrCompare_eq_zero (a b : Char) : chrCompare a b = 0 ↔ a = b := by
  unfold chrCompare
  split_ifs with h1 h2
  · constructor
    · intro h; simp at h
    · intro h; subst h; exact absurd h1 (lt_irrefl _)
  · constructor
    · intro h; simp at h
    · intro h; subst h; exact absurd h2 (lt_irrefl _)
  · have hn : a.toNat = b.toNat := by omega
    have : a = b := by
      have := congrArg Char.ofNat hn
      simpa [Char.ofNat_toNat] using this
    simp [this]

theorem chrCompare_neg (a b : Char) : chrCompare a b = -chrCompare b a := by
  unfold chrCompare
  split_ifs <;> omega

theorem chrCompare_trans (a b c : Char) (h1 : chrCompare a b ≤ 0) (h2 : chrCompare b c ≤ 0) :
    chrCompare a c ≤ 0 := by
  unfold chrCompare at *
  split_ifs at * <;> omega

theorem str_compare_eq_zero (a b : String) : str_compare a b = 0 ↔ a = b := by
  unfold str_compare lexCompare
  rw [listCompare_eq_zero chrCompare_eq_zero]
  constructor
  · intro h; exact congrArg String.mk h
  · intro h; subst h; rfl

theorem str_compare_neg (a b : String) : str_compare a b = -str_compare b a :=
  listCompare_neg chrCompare_neg a.data b.data

theorem str_compare_trans (a b c : String) (h1 : str_compare a b ≤ 0)
    (h2 : str_compare b c ≤ 0) : str_compare a c ≤ 0 :=
  listCompare_trans chrCompare_eq_zero chrCompare_neg chrCompare_trans a.data b.data c.data h1 h2

theorem fieldNum_inj : ∀ x y : SearchField, fieldNum x = fieldNum y → x = y := by
  intro x y
  cases x <;> cases y <;> simp [fieldNum]

theorem entryCompare_eq_zero (x y : SearchField × String) :
    entryCompare x y = 0 ↔ x = y := by
  unfold entryCompare
  split_ifs with h1 h2
  · constructor
    · intro h; simp at h
    · intro h; subst h; exact absurd h1 (lt_irrefl _)
  · constructor
    · intro h; simp at h
    · intro h; subst h; exact absurd h2 (lt_irrefl _)
  · rw [str_compare_eq_zero]
    constructor
    · intro h
      have hf : x.1 = y.1 := fieldNum_inj _ _ (by omega)
      exact Prod.ext hf h
    · intro h; subst h; rfl

theorem entryCompare_neg (x y : SearchField × String) :
    entryCompare x y = -entryCompare y x := by
  unfold entryCompare
  split_ifs <;> first | omega | exact str_compare_neg _ _

theorem entryCompare_trans (x y z : SearchField × String)
    (h1 : entryCompare x y ≤ 0) (h2 : entryCompare y z ≤ 0) : entryCompare x z ≤ 0 := by
  unfold entryCompare at *
  split_ifs at * <;>
    first
      | omega
      | (exact str_compare_trans _ _ _ (by assumption) (by assumption))
      | (exfalso
         first
           | (have hq : str_compare x.2 y.2 = -str_compare y.2 x.2 :=
                str_compare_neg x.2 y.2
              omega)
           | (have hq : str_compare y.2 z.2 = -str_compare z.2 y.2 :=
                str_compare_neg y.2 z.2
              omega)
           | (have hq : str_compare x.2 z.2 = -str_compare z.2 x.2 :=
                str_compare_neg x.2 z.2
              omega))

theorem chainCompare_eq_zero (xs ys : List (SearchField × String)) :
    chainCompare xs ys = 0 ↔ xs = ys :=
  listCompare_eq_zero entryCompare_eq_zero xs ys

theorem chainCompare_neg (xs ys : List (SearchField × String)) :
    chainCompare xs ys = -chainCompare ys xs :=
  listCompare_neg entryCompare_neg xs ys

theorem chainCompare_trans (xs ys zs : List (SearchField × String))
    (h1 : chainCompare xs ys ≤ 0) (h2 : chainCompare ys zs ≤ 0) :
    chainCompare xs zs ≤ 0 :=
  listCompare_trans entryCompare_eq_zero entryCompare_neg entryCompare_trans xs ys zs h1 h2

theorem item_compare_eq_zero (a b : RItem) :
    item_compare a b = 0 ↔ a.pathKey = b.pathKey :=
  chainCompare_eq_zero a.pathKey b.pathKey

theorem item_compare_neg (a b : RItem) : item_compare a b = -item_compare b a :=
  chainCompare_neg a.pathKey b.pathKey

theorem item_compare_trans (a b c : RItem) (h1 : item_compare a b ≤ 0)
    (h2 : item_compare b c ≤ 0) : item_compare a c ≤ 0 :=
  chainCompare_trans a.pathKey b.pathKey c.pathKey h1 h2

theorem item_compare_pass1_neg (a b : RItem) :
    item_compare_pass1 a b = -item_compare_pass1 b a := by
  unfold item_compare_pass1
  split_ifs <;> first | omega | exact item_compare_neg a b

/-- Characterization of the pass-1 order: strictly more matches, or the
same number of matches and canonically not later. -/
theorem item_compare_pass1_le_iff (a b : RItem) :
    item_compare_pass1 a b ≤ 0 ↔
      (b.item.matches'.length < a.item.matches'.length ∨
        (a.item.matches'.length = b.item.matches'.length ∧ item_compare a b ≤ 0)) := by
  unfold item_compare_pass1
  split_ifs with h1 h2
  · constructor
    · intro _; exact Or.inl h1
    · intro _; omega
  · constructor
    · intro h; exfalso; omega
    · intro h
      rcases h with h | ⟨he, _⟩
      · exact absurd h (by omega)
      · exact absurd he (by omega)
  · constructor
    · intro h; exact Or.inr ⟨by omega, h⟩
    · intro h
      rcases h with h | ⟨_, hc⟩
      · exact absurd h h1
      · exact hc

theorem item_compare_pass1_trans (a b c : RItem) (h1 : item_compare_pass1 a b ≤ 0)
    (h2 : item_compare_pass1 b c ≤ 0) : item_compare_pass1 a c ≤ 0 := by
  rw [item_compare_pass1_le_iff] at h1 h2 ⊢
  rcases h1 with h1 | ⟨he1, hc1⟩
  · rcases h2 with h2 | ⟨he2, _⟩
    · exact Or.inl (by omega)
    · exact Or.inl (by omega)
  · rcases h2 with h2 | ⟨he2, hc2⟩
    · exact Or.inl (by omega)
    · exact Or.inr ⟨by omega, item_compare_trans a b c hc1 hc2⟩

instance : IsTrans RItem pass1LE :=
  ⟨fun a b c => item_compare_pass1_trans a b c⟩

instance : IsTotal RItem pass1LE :=
  ⟨fun a b => by
    unfold pass1LE
    have := item_compare_pass1_neg a b
    omega⟩

instance : IsTrans RItem canonLE :=
  ⟨fun a b c => item_compare_trans a b c⟩

instance : IsTotal RItem canonLE :=
  ⟨fun a b => by
    unfold canonLE
    have := item_compare_neg a b
    omega⟩

/-! ## Well-formedness of built databases -/

def Forest.keys : Forest → List Key
  | .nil => []
  | .cons k _ r => k :: r.keys

/-- Well-formed index forest: within every map the keys are distinct, and
every item carries exactly its key's field and name — the shape
`create_database` produces. -/
def wfForest : Forest → Bool
  | .nil => true
  | .cons k (.mk f n _ ch _) r =>
    decide (f = k.field) && decide (n = k.name) && decide (k ∉ r.keys) &&
      wfForest ch && wfForest r

theorem keys_setItem (k : Key) (it : Item) :
    ∀ m : Forest, (m.setItem k it).keys
      = if k ∈ m.keys then m.keys else m.keys ++ [k] := by
  refine forest_sizeOf_induction _ ?_ ?_
  · simp [Forest.setItem, Forest.keys]
  · intro k1 f1 n1 d1 ch1 ms1 r _ ih
    by_cases h : k1 = k
    · subst h
      simp [Forest.setItem, Forest.keys]
    · have hne : ¬ k = k1 := fun he => h he.symm
      simp only [Forest.setItem, if_neg h, Forest.keys, List.mem_cons, ih]
      by_cases hc : k ∈ r.keys
      · simp [hc]
      · simp [hc, hne]

theorem lookup_wf : ∀ (m : Forest), wfForest m = true → ∀ {k : Key} {it : Item},
    m.lookup k = some it →
    it.field = k.field ∧ it.name = k.name ∧ wfForest it.children = true := by
  refine forest_sizeOf_induction _ ?_ ?_
  · intro _ k it hl
    simp [Forest.lookup] at hl
  · intro k1 f1 n1 d1 ch1 ms1 r _ ih hwf k it hl
    simp only [wfForest, Bool.and_eq_true, decide_eq_true_eq] at hwf
    obtain ⟨⟨⟨⟨hf1, hn1⟩, _⟩, hch1⟩, hr⟩ := hwf
    simp only [Forest.lookup] at hl
    by_cases h : k1 = k
    · rw [if_pos h] at hl
      cases hl
      subst h
      exact ⟨hf1, hn1, hch1⟩
    · rw [if_neg h] at hl
      exact ih hr hl

theorem wf_setItem : ∀ (m : Forest), wfForest m = true → ∀ {k : Key}
    {f : SearchField} {n d : String} {ch : Forest} {ms : List Nat},
    f = k.field → n = k.name → wfForest ch = true →
    wfForest (m.setItem k (.mk f n d ch ms)) = true := by
  refine forest_sizeOf_induction _ ?_ ?_
  · intro _ k f n d ch ms hf hn hch
    simp [Forest.setItem, wfForest, Forest.keys, hf, hn, hch]
  · intro k1 f1 n1 d1 ch1 ms1 r _ ih hwf k f n d ch ms hf hn hch
    simp only [wfForest, Bool.and_eq_true, decide_eq_true_eq] at hwf
    obtain ⟨⟨⟨⟨hf1, hn1⟩, hnotin⟩, hch1⟩, hr⟩ := hwf
    by_cases h : k1 = k
    · subst h
      simp [Forest.setItem, wfForest, hf, hn, hch, hnotin, hch1, hr]
    · simp only [Forest.setItem, if_neg h]
      simp only [wfForest, Bool.and_eq_true, decide_eq_true_eq]
      refine ⟨⟨⟨⟨hf1, hn1⟩, ?_⟩, hch1⟩, ih hr hf hn hch⟩
      rw [keys_setItem]
      by_cases hc : k ∈ r.keys
      · simpa [hc] using hnotin
      · have hne : ¬ k1 = k := h
        simp [hc, List.mem_append, hnotin, hne]

theorem wf_insertRecordFields (e : Nat) :
    ∀ (fields : List (SearchField × String)) (m : Forest), wfForest m = true →
      wfForest (insertRecordFields e fields m) = true := by
  intro fields
  induction fields with
  | nil => intro m hm; exact hm
  | cons fv rest ih =>
    intro m hm
    obtain ⟨f, v⟩ := fv
    simp only [insertRecordFields]
    by_cases hv : v = ""
    · rw [if_pos hv]; exact ih m hm
    · rw [if_neg hv]
      by_cases hg : f = SearchField.Genre
      · rw [if_pos hg]
        rcases hl : m.lookup ⟨f, v⟩ with _ | it
        · exact ih _ (wf_setItem m hm rfl rfl rfl)
        · cases it with
          | mk f0 n0 d0 ch0 ms0 =>
            obtain ⟨hf0, hn0, hch0⟩ := lookup_wf m hm hl
            exact ih _ (wf_setItem m hm hf0 hn0 hch0)
      · rw [if_neg hg]
        rcases hl : m.lookup ⟨f, v⟩ with _ | it
        · exact wf_setItem m hm rfl rfl (ih Forest.nil rfl)
        · cases it with
          | mk f0 n0 d0 ch0 ms0 =>
            obtain ⟨hf0, hn0, hch0⟩ := lookup_wf m hm hl
            exact wf_setItem m hm hf0 hn0 (ih ch0 hch0)

theorem wf_create_database (records : List Tuple) :
    wfForest (create_database_forest records) = true := by
  unfold create_database_forest
  have : ∀ (l : List (Nat × Tuple)) (m : Forest), wfForest m = true →
      wfForest (l.foldl (fun m er => insertRecordFields er.1 (recordFields er.2) m) m)
        = true := by
    intro l
    induction l with
    | nil => intro m hm; exact hm
    | cons er l ih =>
      intro m hm
      exact ih _ (wf_insertRecordFields er.1 (recordFields er.2) m hm)
  exact this records.enum .nil rfl

/-- Every node of the forest together with its ancestor chain — the set of
result items `search_recurse` can ever produce from this forest. -/
def allNodes : List (SearchField × String) → Forest → List RItem
  | _, .nil => []
  | chain, .cons _ (.mk f n d ch ms) rest =>
    ⟨.mk f n d ch ms, chain⟩ :: (allNodes ((f, n) :: chain) ch ++ allNodes chain rest)

theorem append_cons_same_tail {α : Type} (p1 p2 : List α) (x y : α) (s : List α)
    (heq : p1 ++ x :: s = p2 ++ y :: s) : x = y := by
  have hlen : p1.length = p2.length := by
    have := congrArg List.length heq
    simp at this
    omega
  obtain ⟨-, h2⟩ := List.append_inj heq hlen
  exact (List.cons.injEq x s y s ▸ h2).1

/-- In a well-formed forest, every reachable node's path key decomposes as
some prefix followed by the key of the top-level entry it sits under,
followed by the ambient chain. -/
theorem allNodes_shape : ∀ fo : Forest, wfForest fo = true →
    ∀ (chain : List (SearchField × String)) (r : RItem), r ∈ allNodes chain fo →
      ∃ pre k, k ∈ fo.keys ∧ r.pathKey = pre ++ (k.field, k.name) :: chain := by
  refine forest_sizeOf_induction _ ?_ ?_
  · intro _ chain r hr
    simp [allNodes] at hr
  · intro k f n d ch ms rest ihch ihrest hwf chain r hr
    simp only [wfForest, Bool.and_eq_true, decide_eq_true_eq] at hwf
    obtain ⟨⟨⟨⟨hf, hn⟩, _⟩, hwfch⟩, hwfrest⟩ := hwf
    simp only [allNodes, List.mem_cons, List.mem_append] at hr
    rcases hr with rfl | hr | hr
    · refine ⟨[], k, ?_, ?_⟩
      · simp [Forest.keys]
      · simp [RItem.pathKey, Item.field, Item.name, hf, hn]
    · obtain ⟨pre, k', _, hkey⟩ := ihch hwfch ((f, n) :: chain) r hr
      refine ⟨pre ++ [(k'.field, k'.name)], k, by simp [Forest.keys], ?_⟩
      rw [hkey, hf, hn]
      simp
    · obtain ⟨pre, k', hk', hkey⟩ := ihrest hwfrest chain r hr
      exact ⟨pre, k', by simp [Forest.keys, hk'], hkey⟩

/-- In a well-formed forest, distinct reachable nodes have distinct path
keys: a node's own `(field, name)` is unique within its map, and the
recursive ancestor chain separates nodes of different maps. -/
theorem allNodes_pathKey_pairwise : ∀ fo : Forest, wfForest fo = true →
    ∀ chain : List (SearchField × String),
      (allNodes chain fo).Pairwise (fun a b => a.pathKey ≠ b.pathKey) := by
  refine forest_sizeOf_induction _ ?_ ?_
  · intro _ chain
    simp [allNodes]
  · intro k f n d ch ms rest ihch ihrest hwf chain
    simp only [wfForest, Bool.and_eq_true, decide_eq_true_eq] at hwf
    obtain ⟨⟨⟨⟨hf, hn⟩, hnotin⟩, hwfch⟩, hwfrest⟩ := hwf
    simp only [allNodes]
    refine List.Pairwise.cons ?_ (List.pairwise_append.mpr ⟨ihch hwfch _, ihrest hwfrest _, ?_⟩)
    · intro r hr
      rcases List.mem_append.mp hr with hr | hr
      · obtain ⟨pre, k', _, hkey⟩ := allNodes_shape ch hwfch ((f, n) :: chain) r hr
        intro heq
        have := congrArg List.length heq
        rw [hkey] at this
        simp [RItem.pathKey] at this
        omega
      · obtain ⟨pre, k', hk', hkey⟩ := allNodes_shape rest hwfrest chain r hr
        intro heq
        rw [hkey] at heq
        have hkeyeq : (f, n) = (k'.field, k'.name) := by
          have : ([] : List (SearchField × String)) ++ (f, n) :: chain
              = pre ++ (k'.field, k'.name) :: chain := by
            simpa [RItem.pathKey, Item.field, Item.name] using heq
          exact append_cons_same_tail _ _ _ _ _ this
        apply hnotin
        have hkk' : k = k' := by
          cases k; cases k'
          simp only [Prod.mk.injEq] at hkeyeq
          simp_all
        rw [hkk']
        exact hk'
    · intro a ha b hb
      obtain ⟨preA, kA, _, hkeyA⟩ := allNodes_shape ch hwfch ((f, n) :: chain) a ha
      obtain ⟨preB, kB, hkB, hkeyB⟩ := allNodes_shape rest hwfrest chain b hb
      intro heq
      rw [hkeyA, hkeyB] at heq
      have heq2 : (preA ++ [(kA.field, kA.name)]) ++ (f, n) :: chain
          = preB ++ (kB.field, kB.name) :: chain := by
        simpa using heq
      have hkeyeq : (f, n) = (kB.field, kB.name) := append_cons_same_tail _ _ _ _ _ heq2
      apply hnotin
      have hkk' : k = kB := by
        cases k; cases kB
        simp only [Prod.mk.injEq] at hkeyeq
        simp_all
      rw [hkk']
      exact hkB

/-! ## Genre nodes are always top-level -/

/-- No key anywhere in this forest (at any depth) has field Genre. -/
def genreFree : Forest → Bool
  | .nil => true
  | .cons k (.mk _ _ _ ch _) r =>
    decide (k.field ≠ SearchField.Genre) && genreFree ch && genreFree r

/-- Every child map, at any depth, is free of Genre keys: Genre nodes can
only sit in the root map. -/
def noNestedGenre : Forest → Bool
  | .nil => true
  | .cons _ (.mk _ _ _ ch _) r => genreFree ch && noNestedGenre r

theorem genreFree_lookup : ∀ m : Forest, genreFree m = true → ∀ {k : Key} {it : Item},
    m.lookup k = some it → genreFree it.children = true := by
  refine forest_sizeOf_induction _ ?_ ?_
  · intro _ k it hl
    simp [Forest.lookup] at hl
  · intro k1 f1 n1 d1 ch1 ms1 r _ ih hg k it hl
    simp only [genreFree, Bool.and_eq_true] at hg
    obtain ⟨⟨_, hch1⟩, hr⟩ := hg
    simp only [Forest.lookup] at hl
    by_cases h : k1 = k
    · rw [if_pos h] at hl
      cases hl
      exact hch1
    · rw [if_neg h] at hl
      exact ih hr hl

theorem noNestedGenre_lookup : ∀ m : Forest, noNestedGenre m = true →
    ∀ {k : Key} {it : Item},
    m.lookup k = some it → genreFree it.children = true := by
  refine forest_sizeOf_induction _ ?_ ?_
  · intro _ k it hl
    simp [Forest.lookup] at hl
  · intro k1 f1 n1 d1 ch1 ms1 r _ ih hg k it hl
    simp only [noNestedGenre, Bool.and_eq_true] at hg
    obtain ⟨hch1, hr⟩ := hg
    simp only [Forest.lookup] at hl
    by_cases h : k1 = k
    · rw [if_pos h] at hl
      cases hl
      exact hch1
    · rw [if_neg h] at hl
      exact ih hr hl

theorem genreFree_setItem : ∀ m : Forest, genreFree m = true → ∀ {k : Key}
    {f : SearchField} {n d : String} {ch : Forest} {ms : List Nat},
    k.field ≠ SearchField.Genre → genreFree ch = true →
    genreFree (m.setItem k (.mk f n d ch ms)) = true := by
  refine forest_sizeOf_induction _ ?_ ?_
  · intro _ k f n d ch ms hk hch
    simp [Forest.setItem, genreFree, hk, hch]
  · intro k1 f1 n1 d1 ch1 ms1 r _ ih hg k f n d ch ms hk hch
    simp only [genreFree, Bool.and_eq_true, decide_eq_true_eq] at hg
    obtain ⟨⟨hk1, hch1⟩, hr⟩ := hg
    by_cases h : k1 = k
    · subst h
      simp [Forest.setItem, genreFree, hk1, hch, hr]
    · simp only [Forest.setItem, if_neg h, genreFree, Bool.and_eq_true, decide_eq_true_eq]
      exact ⟨⟨hk1, hch1⟩, ih hr hk hch⟩

theorem noNestedGenre_setItem : ∀ m : Forest, noNestedGenre m = true → ∀ {k : Key}
    {f : SearchField} {n d : String} {ch : Forest} {ms : List Nat},
    genreFree ch = true →
    noNestedGenre (m.setItem k (.mk f n d ch ms)) = true := by
  refine forest_sizeOf_induction _ ?_ ?_
  · intro _ k f n d ch ms hch
    simp [Forest.setItem, noNestedGenre, hch]
  · intro k1 f1 n1 d1 ch1 ms1 r _ ih hg k f n d ch ms hch
    simp only [noNestedGenre, Bool.and_eq_true] at hg
    obtain ⟨hch1, hr⟩ := hg
    by_cases h : k1 = k
    · subst h
      simp [Forest.setItem, noNestedGenre, hch, hr]
    · simp only [Forest.setItem, if_neg h, noNestedGenre, Bool.and_eq_true]
      exact ⟨hch1, ih hr hch⟩

theorem genreFree_insertRecordFields (e : Nat) :
    ∀ (fields : List (SearchField × String)), (∀ p ∈ fields, p.1 ≠ SearchField.Genre) →
      ∀ m : Forest, genreFree m = true →
        genreFree (insertRecordFields e fields m) = true := by
  intro fields
  induction fields with
  | nil => intro _ m hm; exact hm
  | cons fv rest ih =>
    intro hng m hm
    obtain ⟨f, v⟩ := fv
    have hf : f ≠ SearchField.Genre := hng (f, v) (List.mem_cons_self _ _)
    have hngr : ∀ p ∈ rest, p.1 ≠ SearchField.Genre :=
      fun p hp => hng p (List.mem_cons_of_mem _ hp)
    simp only [insertRecordFields]
    by_cases hv : v = ""
    · rw [if_pos hv]; exact ih hngr m hm
    · rw [if_neg hv, if_neg hf]
      rcases hl : m.lookup ⟨f, v⟩ with _ | it
      · exact genreFree_setItem m hm hf (ih hngr Forest.nil rfl)
      · cases it with
        | mk f0 n0 d0 ch0 ms0 =>
          have hch0 : genreFree ch0 = true := genreFree_lookup m hm hl
          exact genreFree_setItem m hm hf (ih hngr ch0 hch0)

theorem noNestedGenre_insert_nongenre (e : Nat) :
    ∀ (fields : List (SearchField × String)), (∀ p ∈ fields, p.1 ≠ SearchField.Genre) →
      ∀ m : Forest, noNestedGenre m = true →
        noNestedGenre (insertRecordFields e fields m) = true := by
  intro fields
  induction fields with
  | nil => intro _ m hm; exact hm
  | cons fv rest ih =>
    intro hng m hm
    obtain ⟨f, v⟩ := fv
    have hf : f ≠ SearchField.Genre := hng (f, v) (List.mem_cons_self _ _)
    have hngr : ∀ p ∈ rest, p.1 ≠ SearchField.Genre :=
      fun p hp => hng p (List.mem_cons_of_mem _ hp)
    simp only [insertRecordFields]
    by_cases hv : v = ""
    · rw [if_pos hv]; exact ih hngr m hm
    · rw [if_neg hv, if_neg hf]
      rcases hl : m.lookup ⟨f, v⟩ with _ | it
      · exact noNestedGenre_setItem m hm (genreFree_insertRecordFields e rest hngr _ rfl)
      · cases it with
        | mk f0 n0 d0 ch0 ms0 =>
          have hch0 : genreFree ch0 = true := noNestedGenre_lookup m hm hl
          exact noNestedGenre_setItem m hm
            (genreFree_insertRecordFields e rest hngr ch0 hch0)

theorem noNestedGenre_insert_record (e : Nat) (r : Tuple) (m : Forest)
    (hm : noNestedGenre m = true) :
    noNestedGenre (insertRecordFields e (recordFields r) m) = true := by
  have hng : ∀ p ∈ [(SearchField.Artist, r.artist), (SearchField.Album, r.album),
      (SearchField.Title, r.title)], p.1 ≠ SearchField.Genre := by
    intro p hp
    simp only [List.mem_cons, List.not_mem_nil, or_false] at hp
    rcases hp with rfl | rfl | rfl <;> simp
  simp only [recordFields, insertRecordFields]
  by_cases hv : r.genre = ""
  · rw [if_pos hv]
    exact noNestedGenre_insert_nongenre e _ hng m hm
  · rw [if_neg hv]
    rcases hl : m.lookup ⟨SearchField.Genre, r.genre⟩ with _ | it
    · exact noNestedGenre_insert_nongenre e _ hng _ (noNestedGenre_setItem m hm rfl)
    · cases it with
      | mk f0 n0 d0 ch0 ms0 =>
        have hch0 : genreFree ch0 = true := noNestedGenre_lookup m hm hl
        exact noNestedGenre_insert_nongenre e _ hng _ (noNestedGenre_setItem m hm hch0)

theorem noNestedGenre_create_database (records : List Tuple) :
    noNestedGenre (create_database_forest records) = true := by
  unfold create_database_forest
  have : ∀ (l : List (Nat × Tuple)) (m : Forest), noNestedGenre m = true →
      noNestedGenre (l.foldl (fun m er => insertRecordFields er.1 (recordFields er.2) m) m)
        = true := by
    intro l
    induction l with
    | nil => intro m hm; exact hm
    | cons er l ih =>
      intro m hm
      exact ih _ (noNestedGenre_insert_record er.1 er.2 m hm)
  exact this records.enum .nil rfl

/-- Every item appended by `search_recurse` passed the guard
`children.n_items () != 1` at the moment it was appended. -/
theorem search_recurse_no_single_child (terms : List String) :
    ∀ fo : Forest, ∀ (chain : List (SearchField × String)) (mask : Nat) (r : RItem),
      r ∈ search_recurse terms chain mask fo → r.item.children.n_items ≠ 1 := by
  refine forest_sizeOf_induction _ ?_ ?_
  · intro chain mask r hr
    simp [search_recurse] at hr
  · intro k f n d ch ms rest ihch ihrest chain mask r hr
    simp only [search_recurse, List.mem_append] at hr
    rcases hr with (hr | hr) | hr
    · by_cases hc : termLoop d (ch.n_items != 0) terms 0 mask = 0 ∧ ch.n_items ≠ 1
      · rw [if_pos hc] at hr
        simp only [List.mem_singleton] at hr
        subst hr
        simpa [Item.children] using hc.2
      · rw [if_neg hc] at hr
        simp at hr
    · exact ihch _ _ r hr
    · exact ihrest _ _ r hr

/-! ## The claims -/

/-- C1 (counterexample): for the three-record data set, `Search(["bach"])`
does not produce the candidate set {Bach, Suites}: a Title node ("No.1") is
among the candidates and the "Bach" Artist node is not (it has exactly one
child, so the single-child exclusion drops it). -/
theorem bach_search_counterexample :
    ((search_recurse ["bach"] [] (initialMask 1) (create_database_forest bachRecords)).map
        (fun r => r.item.name)).contains "No.1" = true
    ∧ ((search_recurse ["bach"] [] (initialMask 1) (create_database_forest bachRecords)).map
        (fun r => r.item.name)).contains "Bach" = false := by
  decide

/-- C1 (amended): for the three-record data set, after Build,
`Search(["bach"])` produces exactly the candidates Suites (matchCount 2),
No.1 (matchCount 1) and No.2 (matchCount 1): the "Bach" Artist node is
excluded because its child map holds exactly one entry, and the mask
cleared at "Bach" propagates to its whole subtree, making both Title
nodes candidates as well. -/
theorem bach_search_candidates :
    (search_recurse ["bach"] [] (initialMask 1) (create_database_forest bachRecords)).map
        (fun r => (r.item.name, r.item.matches'.length))
      = [("Suites", 2), ("No.1", 1), ("No.2", 1)] := by
  decide

/-- C2: for every built index and every term list, a node whose child map
contains exactly one entry is never appended to the candidate result list,
even when its local mask is zero. -/
theorem single_child_never_candidate (terms : List String)
    (chain : List (SearchField × String)) (mask : Nat) (fo : Forest) (r : RItem)
    (hr : r ∈ search_recurse terms chain mask fo) :
    r.item.children.n_items ≠ 1 :=
  search_recurse_no_single_child terms fo chain mask r hr

/-- C2 witness: a concrete search result, obtained from a childless Artist
node, indeed has a child count other than one. -/
theorem single_child_never_candidate_witness :
    (⟨.mk .Artist "a" "a" .nil [0], []⟩ : RItem)
        ∈ search_recurse [] [] (initialMask 0)
            (.cons ⟨.Artist, "a"⟩ (.mk .Artist "a" "a" .nil [0]) .nil)
    ∧ (⟨.mk .Artist "a" "a" .nil [0], []⟩ : RItem).item.children.n_items ≠ 1 := by
  refine ⟨List.Mem.head _, ?_⟩
  exact single_child_never_candidate [] [] (initialMask 0)
    (.cons ⟨.Artist, "a"⟩ (.mk .Artist "a" "a" .nil [0]) .nil) _ (List.Mem.head _)

/-- C7: searching an index that has never been built, or that has been
cleared since its last build, returns an empty result list and a zero
hidden count. -/
theorem invalid_database_search_empty (st : SearchModel) (max_results : Nat)
    (terms : List String) :
    (do_search max_results terms (destroy_database st)).m_items = []
    ∧ (do_search max_results terms (destroy_database st)).m_hidden_items = 0
    ∧ (do_search max_results terms SearchModel.initial).m_items = []
    ∧ (do_search max_results terms SearchModel.initial).m_hidden_items = 0 := by
  exact ⟨rfl, rfl, rfl, rfl⟩

/-- C8: an empty field value is skipped entirely during Build: no node is
created or looked up, no match is appended and the cursor is unchanged —
processing the field list continues exactly as if the field were absent;
in particular a record whose four fields are all empty leaves the forest
untouched. -/
theorem empty_field_value_skipped (e : Nat) (f : SearchField)
    (rest : List (SearchField × String)) (m : Forest) :
    insertRecordFields e ((f, "") :: rest) m = insertRecordFields e rest m
    ∧ ∀ (e2 : Nat) (m2 : Forest),
        insertRecordFields e2 (recordFields ⟨"", "", "", ""⟩) m2 = m2 := by
  constructor
  · simp [insertRecordFields]
  · intro e2 m2
    rfl

/-- C10: the early break in per-node term testing never changes the
candidate list: the search produces exactly the same candidates, in the
same order, as the variant that tests every still-set term bit at every
node. -/
theorem early_break_never_changes_candidates (terms : List String)
    (chain : List (SearchField × String)) (mask : Nat) (fo : Forest) :
    search_recurse terms chain mask fo = search_recurse_full terms chain mask fo :=
  search_recurse_eq_full terms fo chain mask

/-- C6: with more than 32 terms the search still terminates normally and
behaves exactly as if only the first 32 terms were given: the bit patterns
of the 33rd and later terms wrap to zero, so those terms are always
skipped (never block a candidate), and the initial mask saturates at all
32 bits. -/
theorem terms_beyond_32_unconstrained (st : SearchModel) (max_results : Nat)
    (terms : List String) (h : 32 < terms.length) :
    do_search max_results terms st = do_search max_results (terms.take 32) st := by
  unfold do_search
  rcases hval : st.m_database_valid with _ | _
  · simp [hval]
  · simp only [hval, Bool.true_eq_false, not_true_eq_false, if_false]
    have hmask : initialMask terms.length = initialMask (terms.take 32).length := by
      rw [initialMask_ge32 (by omega), List.length_take,
        initialMask_ge32 (by omega)]
    rw [search_recurse_take32 terms st.m_database [] (initialMask terms.length), hmask]

/-- C6 witness: a concrete 33-term search on a built database equals the
search on its first 32 terms. -/
theorem terms_beyond_32_unconstrained_witness :
    32 < (List.replicate 33 "q").length
    ∧ do_search 20 (List.replicate 33 "q")
        ⟨create_database_forest bachRecords, true, [], 0⟩
      = do_search 20 ((List.replicate 33 "q").take 32)
        ⟨create_database_forest bachRecords, true, [], 0⟩ :=
  ⟨by decide, terms_beyond_32_unconstrained _ 20 _ (by decide)⟩

/-- C3: term satisfaction propagates from ancestors to descendants.  For
terms `{"abc", "xyz"}`, where `"abc"` occurs in an Artist's folded name,
`"xyz"` occurs in its single Album child's folded name but not in the
Artist's, the search returns exactly the Album node: both terms are
collectively satisfied along the path even though no single node is
required to match both. -/
theorem mask_propagation_album_candidate (an al : String) (msA msB : List Nat)
    (h1 : strstr (str_tolower_utf8 an) "abc" = true)
    (h2 : strstr (str_tolower_utf8 al) "xyz" = true)
    (h3 : strstr (str_tolower_utf8 an) "xyz" = false) :
    search_recurse ["abc", "xyz"] [] (initialMask 2)
      (.cons ⟨.Artist, an⟩
        (.mk .Artist an (str_tolower_utf8 an)
          (.cons ⟨.Album, al⟩ (.mk .Album al (str_tolower_utf8 al) .nil msB) .nil) msA)
        .nil)
    = [⟨.mk .Album al (str_tolower_utf8 al) .nil msB, [(.Artist, an)]⟩] := by
  have hA : termLoop (str_tolower_utf8 an) true ["abc", "xyz"] 0 3 = 2 := by
    simp only [termLoop, wrap32]
    rw [if_neg (by decide), if_pos h1, if_neg (by decide), if_neg (by simp [h3])]
    decide
  have hB : termLoop (str_tolower_utf8 al) false ["abc", "xyz"] 0 2 = 0 := by
    simp only [termLoop, wrap32]
    rw [if_pos (by decide), if_neg (by decide), if_pos h2]
    decide
  have hm : initialMask 2 = 3 := by decide
  rw [hm]
  simp [search_recurse, Forest.n_items, hA, hB]

/-- C3 witness: the propagation theorem applied at the concrete names
"abc" / "xyz". -/
theorem mask_propagation_album_candidate_witness :
    strstr (str_tolower_utf8 "abc") "abc" = true
    ∧ strstr (str_tolower_utf8 "xyz") "xyz" = true
    ∧ strstr (str_tolower_utf8 "abc") "xyz" = false
    ∧ search_recurse ["abc", "xyz"] [] (initialMask 2)
        (.cons ⟨.Artist, "abc"⟩
          (.mk .Artist "abc" (str_tolower_utf8 "abc")
            (.cons ⟨.Album, "xyz"⟩
              (.mk .Album "xyz" (str_tolower_utf8 "xyz") .nil []) .nil) [])
          .nil)
      = [⟨.mk .Album "xyz" (str_tolower_utf8 "xyz") .nil [], [(.Artist, "abc")]⟩] :=
  ⟨by decide, by decide, by decide,
    mask_propagation_album_candidate "abc" "xyz" [] [] (by decide) (by decide) (by decide)⟩

/-- C4: processing a Genre field never advances the parent/child-map
cursor, so no child map at any depth ever holds a Genre node (Genre nodes
are always top-level); consequently a record with non-empty Album and
Title but no Artist — with or without Genre — places its Album node in the
root map with the Title node nested under that Album node. -/
theorem genre_toplevel_album_chain :
    (∀ records : List Tuple, noNestedGenre (create_database_forest records) = true)
    ∧ (∀ g al ti : String, al ≠ "" → ti ≠ "" →
        ∃ it : Item,
          (create_database_forest [⟨g, "", al, ti⟩]).lookup ⟨.Album, al⟩ = some it
          ∧ it.field = .Album ∧ it.name = al
          ∧ ∃ it2 : Item, it.children.lookup ⟨.Title, ti⟩ = some it2
              ∧ it2.field = .Title ∧ it2.name = ti) := by
  constructor
  · exact noNestedGenre_create_database
  · intro g al ti hal hti
    rw [show create_database_forest [⟨g, "", al, ti⟩]
        = insertRecordFields 0 (recordFields ⟨g, "", al, ti⟩) Forest.nil from rfl]
    simp only [recordFields, insertRecordFields]
    by_cases hg : g = ""
    · rw [if_pos hg]
      simp only [insertRecordFields, if_pos rfl, if_neg hal, if_neg hti]
      simp [Forest.lookup, Forest.setItem, insertRecordFields, if_neg hti,
        Item.field, Item.name, Item.children]
    · rw [if_neg hg]
      simp only [Forest.lookup]
      simp only [insertRecordFields, if_pos rfl, if_neg hal, if_neg hti]
      simp [Forest.lookup, Forest.setItem, insertRecordFields, if_neg hti,
        Item.field, Item.name, Item.children, Key.mk.injEq]

/-- C4 witness: the Genre invariant on the concrete three-record data set,
and the Album/Title placement for a concrete record with a Genre but no
Artist. -/
theorem genre_toplevel_album_chain_witness :
    noNestedGenre (create_database_forest bachRecords) = true
    ∧ ("A" : String) ≠ "" ∧ ("T" : String) ≠ ""
    ∧ (∃ it : Item,
        (create_database_forest [⟨"g", "", "A", "T"⟩]).lookup ⟨.Album, "A"⟩ = some it
        ∧ it.field = .Album ∧ it.name = "A"
        ∧ ∃ it2 : Item, it.children.lookup ⟨.Title, "T"⟩ = some it2
            ∧ it2.field = .Title ∧ it2.name = "T") :=
  ⟨genre_toplevel_album_chain.1 bachRecords, by decide, by decide,
    genre_toplevel_album_chain.2 "g" "A" "T" (by decide) (by decide)⟩

/-- C9: the canonical comparison (`item_compare`: field order, then display
name, then parentless-before-parented with recursive parent comparison) is
a total order on the reachable nodes of any built index: it is transitive,
every pair is comparable, and two reachable nodes compare equal exactly
when they are the same node — the recursive tertiary key separates
same-named, same-field nodes by their ancestry. -/
theorem item_compare_total_order (records : List Tuple) (a b c : RItem)
    (ha : a ∈ allNodes [] (create_database_forest records))
    (hb : b ∈ allNodes [] (create_database_forest records)) :
    (item_compare a b ≤ 0 → item_compare b c ≤ 0 → item_compare a c ≤ 0)
    ∧ (item_compare a b ≤ 0 ∨ item_compare b a ≤ 0)
    ∧ (item_compare a b = 0 ↔ a = b) := by
  refine ⟨item_compare_trans a b c, ?_, ?_⟩
  · have := item_compare_neg a b
    omega
  · constructor
    · intro h0
      have hkey : a.pathKey = b.pathKey := (item_compare_eq_zero a b).mp h0
      by_contra hne
      have hpw := allNodes_pathKey_pairwise (create_database_forest records)
        (wf_create_database records) []
      have hsym : Symmetric (fun x y : RItem => x.pathKey ≠ y.pathKey) := by
        intro x y hxy heq
        exact hxy heq.symm
      exact hpw.forall hsym ha hb hne hkey
    · intro h
      subst h
      rw [item_compare_eq_zero]

/-- C9 witness: the total-order theorem applied to the node of a concrete
one-record index. -/
theorem item_compare_total_order_witness :
    (⟨.mk .Artist "x" "x" .nil [0], []⟩ : RItem)
        ∈ allNodes [] (create_database_forest [⟨"", "x", "", ""⟩])
    ∧ ((item_compare ⟨.mk .Artist "x" "x" .nil [0], []⟩ ⟨.mk .Artist "x" "x" .nil [0], []⟩ ≤ 0 →
          item_compare ⟨.mk .Artist "x" "x" .nil [0], []⟩ ⟨.mk .Artist "x" "x" .nil [0], []⟩ ≤ 0 →
          item_compare ⟨.mk .Artist "x" "x" .nil [0], []⟩ ⟨.mk .Artist "x" "x" .nil [0], []⟩ ≤ 0)
        ∧ (item_compare ⟨.mk .Artist "x" "x" .nil [0], []⟩ ⟨.mk .Artist "x" "x" .nil [0], []⟩ ≤ 0
            ∨ item_compare ⟨.mk .Artist "x" "x" .nil [0], []⟩ ⟨.mk .Artist "x" "x" .nil [0], []⟩ ≤ 0)
        ∧ (item_compare ⟨.mk .Artist "x" "x" .nil [0], []⟩ ⟨.mk .Artist "x" "x" .nil [0], []⟩ = 0
            ↔ (⟨.mk .Artist "x" "x" .nil [0], []⟩ : RItem) = ⟨.mk .Artist "x" "x" .nil [0], []⟩)) :=
  ⟨List.Mem.head _,
    item_compare_total_order [⟨"", "x", "", ""⟩] _ _ _ (List.Mem.head _) (List.Mem.head _)⟩

/-- Five records with distinct Artist names and no other fields: they
produce five childless top-level candidates. -/
def fiveArtistRecords : List Tuple :=
  [⟨"", "a1", "", ""⟩, ⟨"", "a2", "", ""⟩, ⟨"", "a3", "", ""⟩,
   ⟨"", "a4", "", ""⟩, ⟨"", "a5", "", ""⟩]

/-- C5: after the full candidate list is collected, the pass-1 list is the
candidates sorted by match count descending with canonical order as
tie-break; the hidden count is exactly the number of candidates dropped by
the `max_results` cap; the kept items are a maximal prefix of the pass-1
order (every kept item ranks no worse than every dropped one); and the
final list is the kept items re-sorted by canonical order alone. -/
theorem do_search_rank_truncate_order (db : Forest) (terms : List String)
    (max_results : Nat) (its : List RItem) (hid : Nat) :
    List.Sorted pass1LE
        (List.insertionSort pass1LE (search_recurse terms [] (initialMask terms.length) db))
    ∧ (List.insertionSort pass1LE
        (search_recurse terms [] (initialMask terms.length) db)).Perm
        (search_recurse terms [] (initialMask terms.length) db)
    ∧ (do_search max_results terms ⟨db, true, its, hid⟩).m_hidden_items
        = (search_recurse terms [] (initialMask terms.length) db).length
          - min (search_recurse terms [] (initialMask terms.length) db).length max_results
    ∧ (do_search max_results terms ⟨db, true, its, hid⟩).m_items.length
        = min (search_recurse terms [] (initialMask terms.length) db).length max_results
    ∧ (do_search max_results terms ⟨db, true, its, hid⟩).m_items.Perm
        ((List.insertionSort pass1LE
            (search_recurse terms [] (initialMask terms.length) db)).take max_results)
    ∧ List.Sorted canonLE (do_search max_results terms ⟨db, true, its, hid⟩).m_items
    ∧ ∀ x ∈ (List.insertionSort pass1LE
          (search_recurse terms [] (initialMask terms.length) db)).take max_results,
        ∀ y ∈ (List.insertionSort pass1LE
          (search_recurse terms [] (initialMask terms.length) db)).drop max_results,
          pass1LE x y := by
  set cands := search_recurse terms [] (initialMask terms.length) db with hcands
  set s1 := List.insertionSort pass1LE cands with hs1
  have hdo : do_search max_results terms ⟨db, true, its, hid⟩
      = ⟨db, true,
          List.insertionSort canonLE
            (if max_results < s1.length then s1.take max_results else s1),
          if max_results < s1.length then s1.length - max_results else 0⟩ := rfl
  have hslen : s1.length = cands.length := (List.perm_insertionSort pass1LE cands).length_eq
  have hsorted1 : List.Sorted pass1LE s1 := List.sorted_insertionSort pass1LE cands
  have hperm1 : s1.Perm cands := List.perm_insertionSort pass1LE cands
  refine ⟨hsorted1, hperm1, ?_, ?_, ?_, ?_, ?_⟩
  · rw [hdo]
    dsimp only
    by_cases hc : max_results < s1.length
    · rw [if_pos hc]; omega
    · rw [if_neg hc]; omega
  · rw [hdo]
    dsimp only
    by_cases hc : max_results < s1.length
    · rw [if_pos hc, (List.perm_insertionSort canonLE _).length_eq, List.length_take]; omega
    · rw [if_neg hc, (List.perm_insertionSort canonLE _).length_eq]; omega
  · rw [hdo]
    dsimp only
    by_cases hc : max_results < s1.length
    · rw [if_pos hc]; exact List.perm_insertionSort canonLE _
    · rw [if_neg hc]
      have htk : s1.take max_results = s1 := List.take_of_length_le (by omega)
      rw [htk]
      exact List.perm_insertionSort canonLE _
  · rw [hdo]
    dsimp only
    exact List.sorted_insertionSort canonLE _
  · have hpw : (s1.take max_results ++ s1.drop max_results).Pairwise pass1LE := by
      rw [List.take_append_drop]
      exact hsorted1
    exact (List.pairwise_append.mp hpw).2.2

/-- C5 witness: five qualifying candidates with `max_results = 2` give a
result list of length 2 and a hidden count of 3, and the ranking theorem
instantiates at that input. -/
theorem do_search_rank_truncate_order_witness :
    (search_recurse [] [] (initialMask ([] : List String).length)
        (create_database_forest fiveArtistRecords)).length = 5
    ∧ (do_search 2 [] ⟨create_database_forest fiveArtistRecords, true, [], 0⟩).m_hidden_items = 3
    ∧ (do_search 2 [] ⟨create_database_forest fiveArtistRecords, true, [], 0⟩).m_items.length = 2
    ∧ List.Sorted canonLE
        (do_search 2 [] ⟨create_database_forest fiveArtistRecords, true, [], 0⟩).m_items
    ∧ (∀ x ∈ (List.insertionSort pass1LE
          (search_recurse [] [] (initialMask ([] : List String).length)
            (create_database_forest fiveArtistRecords))).take 2,
        ∀ y ∈ (List.insertionSort pass1LE
          (search_recurse [] [] (initialMask ([] : List String).length)
            (create_database_forest fiveArtistRecords))).drop 2,
          pass1LE x y) :=
  ⟨by decide, by decide, by decide,
    (do_search_rank_truncate_order (create_database_forest fiveArtistRecords) [] 2 [] 0).2.2.2.2.2.1,
    (do_search_rank_truncate_order (create_database_forest fiveArtistRecords) [] 2 [] 0).2.2.2.2.2.2⟩
